import Mathlib

/-!
Shallow embedding of the duplicate-detection engine of `nettoyage_mp3.py`
(the functions `iter_mp3_files`, `file_hash`, `read_tags`, `find_duplicates`
and `scan_worker`), together with proofs about the event stream, the grouping
invariants and the per-strategy fingerprint keys.

Modelling conventions:
* The filesystem snapshot seen by one scan is a `Root`: a readability flag for
  the root directory plus the list of files that `os.walk` would report, in
  walk order.  Each file record carries the outcome of the three per-file disk
  operations the engine may perform on its path: reading its bytes (`none`
  models a raised `OSError` from `open`/`read`), `os.path.getsize` (`none`
  models a raised stat failure), and `read_tags` (whose own failure the source
  already folds to the empty dict, hence a plain association list).
* `hashlib.new(algo)` streamed over 4 MiB chunks digests exactly the full byte
  content, so the hash library is modelled as an explicit parameter
  `dig : String → List Nat → String` from algorithm name and content to the
  hex digest string.
* The progress queue is modelled by the list of events the worker puts on it,
  in order (single producer, FIFO queue).  The scan also records, as explicit
  call logs, the paths passed to `file_hash` and to `read_tags`.
-/

namespace Nettoyage

/-- Result of `read_tags`: the dict produced by `MutagenFile(path, easy=True)`,
as an association list from tag name to the list of string values; any failure
is already folded to the empty list by `read_tags` itself. -/
abbrev Tags := List (String × List String)

/-- One file as reported by `os.walk`: its directory, its bare file name, and
the outcomes of the per-file disk operations on its path (see the module
docstring). -/
structure FSFile where
  dirpath : String
  filename : String
  content : Option (List Nat)
  fsize : Option Nat
  tags : Tags
deriving DecidableEq

/-- A scan root: whether the root path is a readable directory, and the walk
entries below it. -/
structure Root where
  isReadableDir : Bool
  entries : List FSFile
deriving DecidableEq

/-- Model of `os.walk(root)` flattened to walk order.  With the default
`onerror=None`, a missing or unreadable root produces no entries at all (the
`scandir` error is swallowed); `os.walk` itself never raises. -/
def os_walk_files (r : Root) : List FSFile :=
  if r.isReadableDir then r.entries else []

/-- Python `s.lower()` (ASCII case folding, which covers the ".mp3" test). -/
def strLower (s : String) : String :=
  String.mk (s.toList.map Char.toLower)

/-- Python `fn.lower().endswith(".mp3")`. -/
def hasMp3Ext (fn : String) : Bool :=
  List.isSuffixOf ".mp3".toList (strLower fn).toList

/-- Python `os.path.join(dirpath, fn)` for POSIX paths. -/
def os_path_join (a b : String) : String :=
  if b.toList.head? = some '/' then b
  else if a.toList = [] ∨ a.toList.getLast? = some '/' then a ++ b
  else a ++ "/" ++ b

/-- The path string the scan uses for this file:
`os.path.join(dirpath, fn)` as yielded by `iter_mp3_files`. -/
def FSFile.path (f : FSFile) : String :=
  os_path_join f.dirpath f.filename

/-- Python `os.path.basename(p)` for POSIX paths: everything after the last
slash. -/
def os_path_basename (p : String) : String :=
  String.mk (p.toList.foldl (fun acc c => if c = '/' then [] else acc ++ [c]) [])

/-- Index of the last '.' in a character list, if any. -/
def lastDotIdx : List Char → Option Nat
  | [] => none
  | c :: cs =>
    match lastDotIdx cs with
    | some i => some (i + 1)
    | none => if c = '.' then some 0 else none

/-- Python `os.path.splitext(p)[0]`: cut at the last dot, except that a
basename consisting only of dots up to that last dot (e.g. ".mp3", "..mp3")
is not split. -/
def splitext_stem (p : String) : String :=
  match lastDotIdx p.toList with
  | none => p
  | some i => if (p.toList.take i).all (fun c => c = '.') then p else String.mk (p.toList.take i)

/-- Embedding of `iter_mp3_files`: keep the walk entries whose file name,
lowercased, ends in ".mp3".  The source yields the joined path strings; the
embedding keeps the whole record (its path is `FSFile.path`) so that the later
per-file disk operations on that path can be read off the record. -/
def iter_mp3_files (r : Root) : List FSFile :=
  (os_walk_files r).filter (fun f => hasMp3Ext f.filename)

/-- Embedding of `file_hash`: hashlib streaming over fixed-size chunks digests
exactly the file's full byte content, so the model applies the digest function
to the whole content; `none` propagates the open/read failure that the caller
catches. -/
def file_hash (dig : String → List Nat → String) (algo : String) (f : FSFile) : Option String :=
  f.content.map (dig algo)

/-- Embedding of `read_tags(p)`: in one filesystem snapshot the file at path
`p` is the walk entry with that path, and its tag read outcome is that
entry's `tags` field (already empty on failure); a path naming no entry reads
as an empty dict. -/
def read_tags (r : Root) (p : String) : Tags :=
  match (os_walk_files r).find? (fun f => f.path == p) with
  | some f => f.tags
  | none => []

/-- Python `tags.get(k)` on the easy-tags dict. -/
def tagsGet (t : Tags) (k : String) : Option (List String) :=
  (t.find? (fun kv => kv.fst == k)).map (fun kv => kv.snd)

/-- Line 71 of the source:
`(tags.get("title") or [os.path.splitext(os.path.basename(f))[0]])[0]` —
the first declared title value when the title entry exists and is non-empty
(a missing or empty entry is falsy), else the base name without extension. -/
def titleOf (t : Tags) (p : String) : String :=
  match tagsGet t "title" with
  | some (s :: _) => s
  | _ => splitext_stem (os_path_basename p)

/-- The per-file `info` dict built by `find_duplicates`: the keys that may be
set are 'path', 'hash', 'title', 'size'; `dict.get` returns `None` both for
an absent key and for a key set to `None`, so each optional key is one
`Option` field defaulting to `none`. -/
structure FileInfo where
  path : String
  hash : Option String := none
  title : Option String := none
  size : Option Nat := none
deriving DecidableEq

/-- Lines 63–77 of the source: build the `info` dict for one file under the
selected method.  Under 'hash' the `try` around `file_hash` turns an
open/read failure into `None`; under 'name' the title is always set (to the
declared title or the stem); under 'size' a stat failure becomes `None`;
under any other method no fingerprint key is set at all. -/
def mkInfo (dig : String → List Nat → String) (algo method : String) (f : FSFile) : FileInfo :=
  if method == "hash" then { path := f.path, hash := file_hash dig algo f }
  else if method == "name" then { path := f.path, title := some (titleOf f.tags f.path) }
  else if method == "size" then { path := f.path, size := f.fsize }
  else { path := f.path }

/-- Lines 92–98 of the source: the pairwise match test.  `match` starts
`True` and the `elif` chain can only clear it on the branch of the active
method. -/
def matchesInfo (method : String) (fi fj : FileInfo) : Bool :=
  if method == "hash" && fi.hash != fj.hash then false
  else if method == "name" && fi.title != fj.title then false
  else if method == "size" && fi.size != fj.size then false
  else true

/-- Inner loop of the grouping pass (lines 88–101): scan the candidates after
the leader `fi`; a candidate whose path is already used is skipped, a matching
one has its path appended to the group and added to the used set at once. -/
def innerLoop (method : String) (fi : FileInfo) :
    List FileInfo → List String → List String → List String × List String
  | [], group, used => (group, used)
  | fj :: rest, group, used =>
    if fj.path ∈ used then innerLoop method fi rest group used
    else if matchesInfo method fi fj then
      innerLoop method fi rest (group ++ [fj.path]) (fj.path :: used)
    else innerLoop method fi rest group used

/-- Outer loop of the grouping pass (lines 84–104): each not-yet-used
candidate leads a group of all later matching unused candidates; only groups
with more than one member are kept, and a kept group's members all become
used. -/
def groupLoop (method : String) : List FileInfo → List String → List (List String)
  | [], _ => []
  | fi :: rest, used =>
    if fi.path ∈ used then groupLoop method rest used
    else
      let r := innerLoop method fi rest [fi.path] used
      if 1 < r.1.length then r.1 :: groupLoop method rest (r.1 ++ r.2)
      else groupLoop method rest r.2

/-- One group of the final result (lines 106–109): the member paths plus one
`read_tags` record per path, in the same order. -/
structure Group where
  files : List String
  tags : List Tags
deriving DecidableEq

/-- The tagged events a scan puts on the progress queue. -/
inductive Event where
  | total : Nat → Event
  | progress : Nat → Event
  | done : List Group → Event
  | error : String → Event
deriving DecidableEq

/-- Lines 60–80 of the source: the per-file fingerprinting loop.  Returns the
`file_infos` list, the progress events put on the queue (one per file,
carrying the running count), and the logs of paths passed to `file_hash` and
to `read_tags` during this phase. -/
def fingerprint_loop (dig : String → List Nat → String) (algo method : String) :
    List FSFile → Nat → List FileInfo × List Event × List String × List String
  | [], _ => ([], [], [], [])
  | f :: fs, processed =>
    let r := fingerprint_loop dig algo method fs (processed + 1)
    (mkInfo dig algo method f :: r.1,
     Event.progress (processed + 1) :: r.2.1,
     (if method == "hash" then [f.path] else []) ++ r.2.2.1,
     (if method == "name" then [f.path] else []) ++ r.2.2.2)

/-- Everything one call of `find_duplicates` produces: the events it put on
the queue (the total followed by the progress events), its returned group
list, and the call logs for `file_hash` and `read_tags`. -/
structure ScanResult where
  events : List Event
  groups : List Group
  hashCalls : List String
  tagReads : List String
deriving DecidableEq

/-- Embedding of `find_duplicates(root, method, progress_q, algo)` (lines
54–110): enumerate, emit the total, fingerprint each file emitting one
progress event per file, group by the pairwise scan, then attach one
`read_tags` record per grouped path (line 108, logged in `tagReads`). -/
def find_duplicates (dig : String → List Nat → String) (r : Root) (method algo : String) :
    ScanResult :=
  let files := iter_mp3_files r
  let fp := fingerprint_loop dig algo method files 0
  let gs := groupLoop method fp.1 []
  let finalGroups := gs.map (fun g => { files := g, tags := g.map (read_tags r) : Group })
  { events := Event.total files.length :: fp.2.1,
    groups := finalGroups,
    hashCalls := fp.2.2.1,
    tagReads := fp.2.2.2 ++ finalGroups.flatMap Group.files }

/-- Embedding of `scan_worker` (lines 112–117): the full event stream on the
queue is what `find_duplicates` put there followed by the terminal event.  In
the model `find_duplicates` is total — every per-file failure is caught
inside it — so the terminal event is always `done` with the group list. -/
def scan_worker (dig : String → List Nat → String) (r : Root) (method algo : String) :
    List Event :=
  let res := find_duplicates dig r method algo
  res.events ++ [Event.done res.groups]

/-- The equality key that `matchesInfo method` compares: the triple of the
three optional fingerprint fields, masked down to the field of the active
method (an unrecognized method masks everything, so all infos compare
equal). -/
def keyOf (method : String) (fi : FileInfo) : Option String × Option String × Option Nat :=
  (if method == "hash" then fi.hash else none,
   if method == "name" then fi.title else none,
   if method == "size" then fi.size else none)

/-- The pairwise match test of lines 92–98 is exactly equality of the masked
key triples, for every method string. -/
theorem matchesInfo_iff_keyOf (m : String) (fi fj : FileInfo) :
    matchesInfo m fi fj = true ↔ keyOf m fi = keyOf m fj := by
  by_cases hh : m = "hash"
  · subst hh
    by_cases hb : fi.hash = fj.hash <;>
      simp [matchesInfo, keyOf, hb, Prod.ext_iff]
  · have hh' : (m == "hash") = false := beq_eq_false_iff_ne.mpr hh
    by_cases hn : m = "name"
    · subst hn
      by_cases hb : fi.title = fj.title <;>
        simp [matchesInfo, keyOf, hb, Prod.ext_iff]
    · have hn' : (m == "name") = false := beq_eq_false_iff_ne.mpr hn
      by_cases hs : m = "size"
      · subst hs
        by_cases hb : fi.size = fj.size <;>
          simp [matchesInfo, keyOf, hb, Prod.ext_iff]
      · have hs' : (m == "size") = false := beq_eq_false_iff_ne.mpr hs
        simp [matchesInfo, keyOf, hh', hn', hs']

/-- Every branch of `mkInfo` stores the file's joined path. -/
theorem mkInfo_path (dig : String → List Nat → String) (algo method : String) (f : FSFile) :
    (mkInfo dig algo method f).path = f.path := by
  unfold mkInfo
  split
  · rfl
  · split
    · rfl
    · split <;> rfl

/-- Under the 'hash' method the masked key is the stored digest option. -/
theorem keyOf_mkInfo_hash (dig : String → List Nat → String) (algo : String) (f : FSFile) :
    keyOf "hash" (mkInfo dig algo "hash" f) = (f.content.map (dig algo), none, none) :=
  rfl

/-- Under the 'name' method the masked key is the computed title. -/
theorem keyOf_mkInfo_name (dig : String → List Nat → String) (algo : String) (f : FSFile) :
    keyOf "name" (mkInfo dig algo "name" f) = (none, some (titleOf f.tags f.path), none) :=
  rfl

/-- Under the 'size' method the masked key is the stat result. -/
theorem keyOf_mkInfo_size (dig : String → List Nat → String) (algo : String) (f : FSFile) :
    keyOf "size" (mkInfo dig algo "size" f) = (none, none, f.fsize) :=
  rfl

/-- Under a method that is none of the three recognized ones the masked key
is constant, so every pair of infos matches. -/
theorem matchesInfo_unknown (m : String) (h1 : m ≠ "hash") (h2 : m ≠ "name") (h3 : m ≠ "size")
    (fi fj : FileInfo) : matchesInfo m fi fj = true := by
  refine (matchesInfo_iff_keyOf m fi fj).mpr ?_
  simp [keyOf, beq_eq_false_iff_ne.mpr h1, beq_eq_false_iff_ne.mpr h2,
    beq_eq_false_iff_ne.mpr h3]

/-- A list containing two distinct elements has more than one element. -/
theorem one_lt_length_of_two_mem {p q : String} {l : List String}
    (h : p ≠ q) (hp : p ∈ l) (hq : q ∈ l) : 1 < l.length := by
  match l with
  | [] => exact absurd hp (List.not_mem_nil p)
  | [a] =>
    rw [List.mem_singleton] at hp hq
    exact absurd (hp.trans hq.symm) h
  | a :: b :: t => simp [List.length]

/-- Structure of one inner-loop run: the final group is the starting group
followed by the collected extension, the used set grows by exactly that
extension (pushed in reverse), and every collected path was unused on entry
and is the path of a later matching candidate. -/
theorem innerLoop_eq (m : String) (fi : FileInfo) (rest : List FileInfo) :
    ∀ (group used : List String),
      ∃ ext, innerLoop m fi rest group used = (group ++ ext, ext.reverse ++ used) ∧
        ∀ p ∈ ext, p ∉ used ∧ ∃ x ∈ rest, x.path = p ∧ matchesInfo m fi x = true := by
  induction rest with
  | nil =>
    intro group used
    exact ⟨[], by simp [innerLoop], by simp⟩
  | cons fj rest ih =>
    intro group used
    by_cases hju : fj.path ∈ used
    · obtain ⟨ext, he, hp⟩ := ih group used
      refine ⟨ext, ?_, ?_⟩
      · simpa [innerLoop, hju] using he
      · intro p hpe
        obtain ⟨h1, x, hx, hx2, hx3⟩ := hp p hpe
        exact ⟨h1, x, List.mem_cons_of_mem _ hx, hx2, hx3⟩
    · cases hm : matchesInfo m fi fj with
      | true =>
        obtain ⟨ext, he, hp⟩ := ih (group ++ [fj.path]) (fj.path :: used)
        refine ⟨fj.path :: ext, ?_, ?_⟩
        · simp only [innerLoop, if_neg hju, hm, if_true]
          rw [he]
          simp
        · intro p hpe
          rcases List.mem_cons.mp hpe with h | h
          · subst h
            exact ⟨hju, fj, List.mem_cons_self _ _, rfl, hm⟩
          · obtain ⟨h1, x, hx, hx2, hx3⟩ := hp p h
            exact ⟨fun hc => h1 (List.mem_cons_of_mem _ hc), x,
              List.mem_cons_of_mem _ hx, hx2, hx3⟩
      | false =>
        obtain ⟨ext, he, hp⟩ := ih group used
        refine ⟨ext, ?_, ?_⟩
        · simpa [innerLoop, hju, hm] using he
        · intro p hpe
          obtain ⟨h1, x, hx, hx2, hx3⟩ := hp p hpe
          exact ⟨h1, x, List.mem_cons_of_mem _ hx, hx2, hx3⟩

/-- Inner-loop completeness: a later candidate that matches the leader and
whose path is not yet used contributes its path to the group. -/
theorem innerLoop_mem (m : String) (fi : FileInfo) (rest : List FileInfo) :
    ∀ (group used : List String) (x : FileInfo), x ∈ rest → matchesInfo m fi x = true →
      x.path ∉ used → x.path ∈ (innerLoop m fi rest group used).1 := by
  induction rest with
  | nil => intro _ _ x hx; exact absurd hx (List.not_mem_nil _)
  | cons fj rest ih =>
    intro group used x hx hmx hxu
    by_cases hju : fj.path ∈ used
    · have hxr : x ∈ rest := by
        rcases List.mem_cons.mp hx with h | h
        · exact absurd (h ▸ hju) hxu
        · exact h
      have hstep : innerLoop m fi (fj :: rest) group used = innerLoop m fi rest group used := by
        simp [innerLoop, hju]
      rw [hstep]
      exact ih group used x hxr hmx hxu
    · cases hm : matchesInfo m fi fj with
      | true =>
        have hstep : innerLoop m fi (fj :: rest) group used
            = innerLoop m fi rest (group ++ [fj.path]) (fj.path :: used) := by
          simp [innerLoop, hju, hm]
        rw [hstep]
        obtain ⟨ext, he, _⟩ := innerLoop_eq m fi rest (group ++ [fj.path]) (fj.path :: used)
        rcases List.mem_cons.mp hx with h | h
        · subst h
          rw [he]
          simp
        · by_cases hpp : x.path = fj.path
          · rw [he]
            simp [hpp]
          · rw [he]
            have := ih (group ++ [fj.path]) (fj.path :: used) x h hmx
              (by simp [hpp, hxu])
            rw [he] at this
            exact this
      | false =>
        have hxr : x ∈ rest := by
          rcases List.mem_cons.mp hx with h | h
          · rw [h] at hmx
            rw [hmx] at hm
            exact absurd hm (by simp)
          · exact h
        have hstep : innerLoop m fi (fj :: rest) group used = innerLoop m fi rest group used := by
          simp [innerLoop, hju, hm]
        rw [hstep]
        exact ih group used x hxr hmx hxu

/-- Members of groups emitted below a given used set avoid that used set. -/
theorem groupLoop_not_used (m : String) (l : List FileInfo) :
    ∀ (u : List String), ∀ g ∈ groupLoop m l u, ∀ p ∈ g, p ∉ u := by
  induction l with
  | nil => intro u g hg; simp [groupLoop] at hg
  | cons fi rest ih =>
    intro u g hg p hp
    by_cases hfu : fi.path ∈ u
    · rw [show groupLoop m (fi :: rest) u = groupLoop m rest u from by simp [groupLoop, hfu]] at hg
      exact ih u g hg p hp
    · obtain ⟨ext, he, hext⟩ := innerLoop_eq m fi rest [fi.path] u
      rw [show groupLoop m (fi :: rest) u
          = (if 1 < ([fi.path] ++ ext).length
             then ([fi.path] ++ ext) :: groupLoop m rest (([fi.path] ++ ext) ++ (ext.reverse ++ u))
             else groupLoop m rest (ext.reverse ++ u))
          from by simp only [groupLoop, if_neg hfu, he]] at hg
      by_cases hlen : 1 < ([fi.path] ++ ext).length
      · rw [if_pos hlen] at hg
        rcases List.mem_cons.mp hg with h | h
        · subst h
          rcases List.mem_append.mp hp with h1 | h1
          · rw [List.mem_singleton] at h1
            exact h1 ▸ hfu
          · exact (hext p h1).1
        · intro hpu
          exact ih _ g h p hp (List.mem_append_right _ (List.mem_append_right _ hpu))
      · rw [if_neg hlen] at hg
        intro hpu
        exact ih _ g hg p hp (List.mem_append_right _ hpu)

/-- Every emitted group has more than one member. -/
theorem groupLoop_two_lt (m : String) (l : List FileInfo) :
    ∀ (u : List String), ∀ g ∈ groupLoop m l u, 1 < g.length := by
  induction l with
  | nil => intro u g hg; simp [groupLoop] at hg
  | cons fi rest ih =>
    intro u g hg
    by_cases hfu : fi.path ∈ u
    · rw [show groupLoop m (fi :: rest) u = groupLoop m rest u from by simp [groupLoop, hfu]] at hg
      exact ih u g hg
    · obtain ⟨ext, he, _⟩ := innerLoop_eq m fi rest [fi.path] u
      rw [show groupLoop m (fi :: rest) u
          = (if 1 < ([fi.path] ++ ext).length
             then ([fi.path] ++ ext) :: groupLoop m rest (([fi.path] ++ ext) ++ (ext.reverse ++ u))
             else groupLoop m rest (ext.reverse ++ u))
          from by simp only [groupLoop, if_neg hfu, he]] at hg
      by_cases hlen : 1 < ([fi.path] ++ ext).length
      · rw [if_pos hlen] at hg
        rcases List.mem_cons.mp hg with h | h
        · exact h ▸ hlen
        · exact ih _ g h
      · rw [if_neg hlen] at hg
        exact ih _ g hg

/-- Every member of an emitted group is the path of some candidate. -/
theorem groupLoop_sound (m : String) (l : List FileInfo) :
    ∀ (u : List String), ∀ g ∈ groupLoop m l u, ∀ p ∈ g, ∃ x ∈ l, x.path = p := by
  induction l with
  | nil => intro u g hg; simp [groupLoop] at hg
  | cons fi rest ih =>
    intro u g hg p hp
    by_cases hfu : fi.path ∈ u
    · rw [show groupLoop m (fi :: rest) u = groupLoop m rest u from by simp [groupLoop, hfu]] at hg
      obtain ⟨x, hx, hx2⟩ := ih u g hg p hp
      exact ⟨x, List.mem_cons_of_mem _ hx, hx2⟩
    · obtain ⟨ext, he, hext⟩ := innerLoop_eq m fi rest [fi.path] u
      rw [show groupLoop m (fi :: rest) u
          = (if 1 < ([fi.path] ++ ext).length
             then ([fi.path] ++ ext) :: groupLoop m rest (([fi.path] ++ ext) ++ (ext.reverse ++ u))
             else groupLoop m rest (ext.reverse ++ u))
          from by simp only [groupLoop, if_neg hfu, he]] at hg
      by_cases hlen : 1 < ([fi.path] ++ ext).length
      · rw [if_pos hlen] at hg
        rcases List.mem_cons.mp hg with h | h
        · subst h
          rcases List.mem_append.mp hp with h1 | h1
          · rw [List.mem_singleton] at h1
            exact ⟨fi, List.mem_cons_self _ _, h1.symm⟩
          · obtain ⟨_, x, hx, hx2, _⟩ := hext p h1
            exact ⟨x, List.mem_cons_of_mem _ hx, hx2⟩
        · obtain ⟨x, hx, hx2⟩ := ih _ g h p hp
          exact ⟨x, List.mem_cons_of_mem _ hx, hx2⟩
      · rw [if_neg hlen] at hg
        obtain ⟨x, hx, hx2⟩ := ih _ g hg p hp
        exact ⟨x, List.mem_cons_of_mem _ hx, hx2⟩

/-- Distinct emitted groups are disjoint: no path is in two groups. -/
theorem groupLoop_pairwise (m : String) (l : List FileInfo) :
    ∀ (u : List String),
      (groupLoop m l u).Pairwise (fun g1 g2 => ∀ p ∈ g1, p ∉ g2) := by
  induction l with
  | nil => intro u; simp [groupLoop]
  | cons fi rest ih =>
    intro u
    by_cases hfu : fi.path ∈ u
    · rw [show groupLoop m (fi :: rest) u = groupLoop m rest u from by simp [groupLoop, hfu]]
      exact ih u
    · obtain ⟨ext, he, _⟩ := innerLoop_eq m fi rest [fi.path] u
      rw [show groupLoop m (fi :: rest) u
          = (if 1 < ([fi.path] ++ ext).length
             then ([fi.path] ++ ext) :: groupLoop m rest (([fi.path] ++ ext) ++ (ext.reverse ++ u))
             else groupLoop m rest (ext.reverse ++ u))
          from by simp only [groupLoop, if_neg hfu, he]]
      by_cases hlen : 1 < ([fi.path] ++ ext).length
      · rw [if_pos hlen]
        refine List.pairwise_cons.mpr ⟨?_, ih _⟩
        intro g' hg' p hp hp'
        exact groupLoop_not_used m rest _ g' hg' p hp' (List.mem_append_left _ hp)
      · rw [if_neg hlen]
        exact ih _

/-- Key soundness: every emitted group is key-uniform — some key value is
shared by a witness candidate for each member path. -/
theorem groupLoop_key (m : String) (l : List FileInfo) :
    ∀ (u : List String), ∀ g ∈ groupLoop m l u,
      ∃ v, ∀ p ∈ g, ∃ x ∈ l, x.path = p ∧ keyOf m x = v := by
  induction l with
  | nil => intro u g hg; simp [groupLoop] at hg
  | cons fi rest ih =>
    intro u g hg
    by_cases hfu : fi.path ∈ u
    · rw [show groupLoop m (fi :: rest) u = groupLoop m rest u from by simp [groupLoop, hfu]] at hg
      obtain ⟨v, hv⟩ := ih u g hg
      exact ⟨v, fun p hp => by
        obtain ⟨x, hx, hx2, hx3⟩ := hv p hp
        exact ⟨x, List.mem_cons_of_mem _ hx, hx2, hx3⟩⟩
    · obtain ⟨ext, he, hext⟩ := innerLoop_eq m fi rest [fi.path] u
      rw [show groupLoop m (fi :: rest) u
          = (if 1 < ([fi.path] ++ ext).length
             then ([fi.path] ++ ext) :: groupLoop m rest (([fi.path] ++ ext) ++ (ext.reverse ++ u))
             else groupLoop m rest (ext.reverse ++ u))
          from by simp only [groupLoop, if_neg hfu, he]] at hg
      by_cases hlen : 1 < ([fi.path] ++ ext).length
      · rw [if_pos hlen] at hg
        rcases List.mem_cons.mp hg with h | h
        · subst h
          refine ⟨keyOf m fi, fun p hp => ?_⟩
          rcases List.mem_append.mp hp with h1 | h1
          · rw [List.mem_singleton] at h1
            exact ⟨fi, List.mem_cons_self _ _, h1.symm, rfl⟩
          · obtain ⟨_, x, hx, hx2, hx3⟩ := hext p h1
            exact ⟨x, List.mem_cons_of_mem _ hx, hx2,
              ((matchesInfo_iff_keyOf m fi x).mp hx3).symm⟩
        · obtain ⟨v, hv⟩ := ih _ g h
          exact ⟨v, fun p hp => by
            obtain ⟨x, hx, hx2, hx3⟩ := hv p hp
            exact ⟨x, List.mem_cons_of_mem _ hx, hx2, hx3⟩⟩
      · rw [if_neg hlen] at hg
        obtain ⟨v, hv⟩ := ih _ g hg
        exact ⟨v, fun p hp => by
          obtain ⟨x, hx, hx2, hx3⟩ := hv p hp
          exact ⟨x, List.mem_cons_of_mem _ hx, hx2, hx3⟩⟩

/-- Key completeness: when candidate paths are pairwise distinct, two
candidates with equal keys and unused distinct paths land in one common
emitted group. -/
theorem groupLoop_complete (m : String) (l : List FileInfo) :
    ∀ (u : List String) (x y : FileInfo),
      (l.map FileInfo.path).Nodup → x ∈ l → y ∈ l → x.path ≠ y.path →
      keyOf m x = keyOf m y → x.path ∉ u → y.path ∉ u →
      ∃ g ∈ groupLoop m l u, x.path ∈ g ∧ y.path ∈ g := by
  induction l with
  | nil => intro u x y _ hx; exact absurd hx (List.not_mem_nil _)
  | cons z rest ih =>
    intro u x y hnd hx hy hxy hkey hxu hyu
    have hnd' : (rest.map FileInfo.path).Nodup := (List.nodup_cons.mp (by simpa using hnd)).2
    have hznr : z.path ∉ rest.map FileInfo.path := (List.nodup_cons.mp (by simpa using hnd)).1
    by_cases hzu : z.path ∈ u
    · have hxr : x ∈ rest := by
        rcases List.mem_cons.mp hx with h | h
        · exact absurd (h ▸ hzu) hxu
        · exact h
      have hyr : y ∈ rest := by
        rcases List.mem_cons.mp hy with h | h
        · exact absurd (h ▸ hzu) hyu
        · exact h
      rw [show groupLoop m (z :: rest) u = groupLoop m rest u from by simp [groupLoop, hzu]]
      exact ih u x y hnd' hxr hyr hxy hkey hxu hyu
    · obtain ⟨ext, he, hext⟩ := innerLoop_eq m z rest [z.path] u
      rw [show groupLoop m (z :: rest) u
          = (if 1 < ([z.path] ++ ext).length
             then ([z.path] ++ ext) :: groupLoop m rest (([z.path] ++ ext) ++ (ext.reverse ++ u))
             else groupLoop m rest (ext.reverse ++ u))
          from by simp only [groupLoop, if_neg hzu, he]]
      by_cases hkz : keyOf m z = keyOf m x
      · have hmx : matchesInfo m z x = true := (matchesInfo_iff_keyOf m z x).mpr hkz
        have hmy : matchesInfo m z y = true :=
          (matchesInfo_iff_keyOf m z y).mpr (hkz.trans hkey)
        have hxg : x.path ∈ [z.path] ++ ext := by
          rcases List.mem_cons.mp hx with h | h
          · rw [h]
            simp
          · have := innerLoop_mem m z rest [z.path] u x h hmx hxu
            rw [he] at this
            exact this
        have hyg : y.path ∈ [z.path] ++ ext := by
          rcases List.mem_cons.mp hy with h | h
          · rw [h]
            simp
          · have := innerLoop_mem m z rest [z.path] u y h hmy hyu
            rw [he] at this
            exact this
        have hlen : 1 < ([z.path] ++ ext).length := one_lt_length_of_two_mem hxy hxg hyg
        rw [if_pos hlen]
        exact ⟨[z.path] ++ ext, List.mem_cons_self _ _, hxg, hyg⟩
      · have hky : keyOf m z ≠ keyOf m y := fun h => hkz (h.trans hkey.symm)
        have hxz : x ≠ z := fun h => hkz (by rw [h])
        have hyz : y ≠ z := fun h => hky (by rw [h])
        have hxr : x ∈ rest := by
          rcases List.mem_cons.mp hx with h | h
          · exact absurd h hxz
          · exact h
        have hyr : y ∈ rest := by
          rcases List.mem_cons.mp hy with h | h
          · exact absurd h hyz
          · exact h
        have hxnz : x.path ≠ z.path := by
          intro h
          exact hznr (h ▸ List.mem_map_of_mem FileInfo.path hxr)
        have hynz : y.path ≠ z.path := by
          intro h
          exact hznr (h ▸ List.mem_map_of_mem FileInfo.path hyr)
        have hxne : x.path ∉ ext := by
          intro hc
          obtain ⟨_, w, hw, hw2, hw3⟩ := hext x.path hc
          have hwx : w = x := List.inj_on_of_nodup_map hnd' hw hxr hw2
          rw [hwx] at hw3
          exact hkz ((matchesInfo_iff_keyOf m z x).mp hw3)
        have hyne : y.path ∉ ext := by
          intro hc
          obtain ⟨_, w, hw, hw2, hw3⟩ := hext y.path hc
          have hwy : w = y := List.inj_on_of_nodup_map hnd' hw hyr hw2
          rw [hwy] at hw3
          exact hky ((matchesInfo_iff_keyOf m z y).mp hw3)
        have hxg1 : x.path ∉ [z.path] ++ ext := by
          intro hc
          rcases List.mem_append.mp hc with h | h
          · exact hxnz (List.mem_singleton.mp h)
          · exact hxne h
        have hyg1 : y.path ∉ [z.path] ++ ext := by
          intro hc
          rcases List.mem_append.mp hc with h | h
          · exact hynz (List.mem_singleton.mp h)
          · exact hyne h
        have hxu2 : x.path ∉ ext.reverse ++ u := by
          intro hc
          rcases List.mem_append.mp hc with h | h
          · exact hxne (List.mem_reverse.mp h)
          · exact hxu h
        have hyu2 : y.path ∉ ext.reverse ++ u := by
          intro hc
          rcases List.mem_append.mp hc with h | h
          · exact hyne (List.mem_reverse.mp h)
          · exact hyu h
        by_cases hlen : 1 < ([z.path] ++ ext).length
        · rw [if_pos hlen]
          obtain ⟨g, hg, hg2⟩ := ih (([z.path] ++ ext) ++ (ext.reverse ++ u)) x y hnd' hxr hyr
            hxy hkey
            (by
              intro hc
              rcases List.mem_append.mp hc with h | h
              · exact hxg1 h
              · exact hxu2 h)
            (by
              intro hc
              rcases List.mem_append.mp hc with h | h
              · exact hyg1 h
              · exact hyu2 h)
          exact ⟨g, List.mem_cons_of_mem _ hg, hg2⟩
        · rw [if_neg hlen]
          exact ih (ext.reverse ++ u) x y hnd' hxr hyr hxy hkey hxu2 hyu2

/-- Event classifier: is this a `total` event. -/
def isTotalEv : Event → Bool
  | .total _ => true
  | _ => false

/-- Event classifier: is this a `progress` event. -/
def isProgressEv : Event → Bool
  | .progress _ => true
  | _ => false

/-- Event classifier: is this a terminal (`done` or `error`) event. -/
def isTerminalEv : Event → Bool
  | .done _ => true
  | .error _ => true
  | _ => false

/-- Event classifier: is this an `error` event. -/
def isErrorEv : Event → Bool
  | .error _ => true
  | _ => false

/-- The running progress counter values `k+1, k+2, ..., k+n` that a scan of
`n` files emits after already having processed `k`. -/
def progVals : Nat → Nat → List Nat
  | _, 0 => []
  | k, n + 1 => (k + 1) :: progVals (k + 1) n

/-- Length of the progress value list. -/
theorem progVals_length : ∀ (n k : Nat), (progVals k n).length = n := by
  intro n
  induction n with
  | zero => intro k; rfl
  | succ n ih => intro k; simp [progVals, ih]

/-- The head of a non-empty progress value list is the next counter value. -/
theorem progVals_head : ∀ (n k b : Nat), b ∈ (progVals k n).head? → b = k + 1 := by
  intro n
  cases n with
  | zero => intro k b hb; simp [progVals] at hb
  | succ n => intro k b hb; simp [progVals] at hb; omega

/-- Progress values are non-decreasing. -/
theorem progVals_chain : ∀ (n k : Nat), List.Chain' (fun a b => a ≤ b) (progVals k n) := by
  intro n
  induction n with
  | zero => intro k; simp [progVals]
  | succ n ih =>
    intro k
    rw [show progVals k (n + 1) = (k + 1) :: progVals (k + 1) n from rfl]
    refine List.chain'_cons'.mpr ⟨?_, ih (k + 1)⟩
    intro b hb
    have := progVals_head n (k + 1) b hb
    omega

/-- The last progress value of a non-empty run is the final counter. -/
theorem progVals_getLast : ∀ (n k : Nat), (progVals k (n + 1)).getLast? = some (k + (n + 1)) := by
  intro n
  induction n with
  | zero => intro k; rfl
  | succ n ih =>
    intro k
    rw [show progVals k (n + 2) = (k + 1) :: ((k + 2) :: progVals (k + 2) n) from rfl]
    rw [List.getLast?_cons_cons]
    rw [show ((k + 2) :: progVals (k + 2) n) = progVals (k + 1) (n + 1) from rfl]
    rw [ih (k + 1)]
    simp only [Option.some.injEq]
    omega

/-- The info list built by the fingerprinting loop is `mkInfo` mapped over
the files. -/
theorem fingerprint_loop_infos (dig : String → List Nat → String) (algo m : String) :
    ∀ (files : List FSFile) (k : Nat),
      (fingerprint_loop dig algo m files k).1 = files.map (mkInfo dig algo m) := by
  intro files
  induction files with
  | nil => intro k; rfl
  | cons f fs ih =>
    intro k
    simp only [fingerprint_loop, List.map_cons]
    rw [ih]

/-- The events put on the queue by the fingerprinting loop are one progress
event per file carrying the running counter. -/
theorem fingerprint_loop_events (dig : String → List Nat → String) (algo m : String) :
    ∀ (files : List FSFile) (k : Nat),
      (fingerprint_loop dig algo m files k).2.1
        = (progVals k files.length).map Event.progress := by
  intro files
  induction files with
  | nil => intro k; rfl
  | cons f fs ih =>
    intro k
    simp only [fingerprint_loop, List.length_cons]
    rw [show progVals k (fs.length + 1) = (k + 1) :: progVals (k + 1) fs.length from rfl]
    simp only [List.map_cons]
    rw [ih]

/-- The fingerprinting loop calls `file_hash` exactly on every file under the
'hash' method and never otherwise. -/
theorem fingerprint_loop_hash (dig : String → List Nat → String) (algo m : String) :
    ∀ (files : List FSFile) (k : Nat),
      (fingerprint_loop dig algo m files k).2.2.1
        = if m == "hash" then files.map FSFile.path else [] := by
  intro files
  induction files with
  | nil => intro k; cases hb : (m == "hash") <;> simp [fingerprint_loop, hb]
  | cons f fs ih =>
    intro k
    cases hb : (m == "hash") <;> simp [fingerprint_loop, hb, ih (k + 1)]

/-- The fingerprinting loop calls `read_tags` exactly on every file under the
'name' method and never otherwise. -/
theorem fingerprint_loop_tags (dig : String → List Nat → String) (algo m : String) :
    ∀ (files : List FSFile) (k : Nat),
      (fingerprint_loop dig algo m files k).2.2.2
        = if m == "name" then files.map FSFile.path else [] := by
  intro files
  induction files with
  | nil => intro k; cases hb : (m == "name") <;> simp [fingerprint_loop, hb]
  | cons f fs ih =>
    intro k
    cases hb : (m == "name") <;> simp [fingerprint_loop, hb, ih (k + 1)]

/-- Closed form of the queue events of one `find_duplicates` call. -/
theorem find_duplicates_events (dig : String → List Nat → String) (r : Root) (m algo : String) :
    (find_duplicates dig r m algo).events
      = Event.total (iter_mp3_files r).length
          :: (progVals 0 (iter_mp3_files r).length).map Event.progress := by
  simp only [find_duplicates]
  rw [fingerprint_loop_events]

/-- Closed form of the returned groups of one `find_duplicates` call. -/
theorem find_duplicates_groups (dig : String → List Nat → String) (r : Root) (m algo : String) :
    (find_duplicates dig r m algo).groups
      = (groupLoop m ((iter_mp3_files r).map (mkInfo dig algo m)) []).map
          (fun g => { files := g, tags := g.map (read_tags r) : Group }) := by
  simp only [find_duplicates]
  rw [fingerprint_loop_infos]

/-- Closed form of the `file_hash` call log of one `find_duplicates` call. -/
theorem find_duplicates_hashCalls (dig : String → List Nat → String) (r : Root) (m algo : String) :
    (find_duplicates dig r m algo).hashCalls
      = if m == "hash" then (iter_mp3_files r).map FSFile.path else [] := by
  simp only [find_duplicates]
  rw [fingerprint_loop_hash]

/-- Closed form of the `read_tags` call log of one `find_duplicates` call:
the per-file reads of the 'name' method followed by one read per grouped
path. -/
theorem find_duplicates_tagReads (dig : String → List Nat → String) (r : Root) (m algo : String) :
    (find_duplicates dig r m algo).tagReads
      = (if m == "name" then (iter_mp3_files r).map FSFile.path else [])
          ++ (find_duplicates dig r m algo).groups.flatMap Group.files := by
  simp only [find_duplicates]
  rw [fingerprint_loop_tags]

/-- Closed form of the full event stream one scan worker puts on the queue:
one total, one progress event per file with the running count, and the
terminal done event. -/
theorem scan_worker_eq (dig : String → List Nat → String) (r : Root) (m algo : String) :
    scan_worker dig r m algo
      = Event.total (iter_mp3_files r).length
          :: ((progVals 0 (iter_mp3_files r).length).map Event.progress
              ++ [Event.done (find_duplicates dig r m algo).groups]) := by
  simp only [scan_worker]
  rw [find_duplicates_events]
  simp

/-- Mapped progress events contribute nothing to a count of events of any
other kind. -/
theorem countP_map_progress (P : Event → Bool) (h : ∀ n, P (Event.progress n) = false)
    (l : List Nat) : (l.map Event.progress).countP P = 0 := by
  refine List.countP_eq_zero.mpr ?_
  intro e he
  obtain ⟨n, _, rfl⟩ := List.mem_map.mp he
  simp [h]

/-- The info paths are exactly the file paths. -/
theorem infos_map_path (dig : String → List Nat → String) (algo m : String) (r : Root) :
    ((iter_mp3_files r).map (mkInfo dig algo m)).map FileInfo.path
      = (iter_mp3_files r).map FSFile.path := by
  rw [List.map_map]
  exact List.map_congr_left (fun f _ => mkInfo_path dig algo m f)

/-- Master characterization: on a snapshot with pairwise distinct paths, two
distinct enumerated files share a final group exactly when their masked
fingerprint keys are equal. -/
theorem grouped_iff_key (dig : String → List Nat → String) (r : Root) (m algo : String)
    (x y : FSFile)
    (hnd : ((iter_mp3_files r).map FSFile.path).Nodup)
    (hx : x ∈ iter_mp3_files r) (hy : y ∈ iter_mp3_files r)
    (hne : x.path ≠ y.path) :
    (∃ g ∈ (find_duplicates dig r m algo).groups, x.path ∈ g.files ∧ y.path ∈ g.files)
      ↔ keyOf m (mkInfo dig algo m x) = keyOf m (mkInfo dig algo m y) := by
  have hndI : (((iter_mp3_files r).map (mkInfo dig algo m)).map FileInfo.path).Nodup := by
    rw [infos_map_path]
    exact hnd
  constructor
  · rintro ⟨g', hg', hxg, hyg⟩
    rw [find_duplicates_groups] at hg'
    obtain ⟨g, hg, rfl⟩ := List.mem_map.mp hg'
    obtain ⟨v, hv⟩ := groupLoop_key m _ [] g hg
    obtain ⟨xi, hxi, hxi2, hxi3⟩ := hv x.path hxg
    obtain ⟨yi, hyi, hyi2, hyi3⟩ := hv y.path hyg
    obtain ⟨fx, hfx, rfl⟩ := List.mem_map.mp hxi
    obtain ⟨fy, hfy, rfl⟩ := List.mem_map.mp hyi
    rw [mkInfo_path] at hxi2 hyi2
    have hfxx : fx = x := List.inj_on_of_nodup_map hnd hfx hx hxi2
    have hfyy : fy = y := List.inj_on_of_nodup_map hnd hfy hy hyi2
    rw [hfxx] at hxi3
    rw [hfyy] at hyi3
    exact hxi3.trans hyi3.symm
  · intro hkey
    obtain ⟨g, hg, hxg, hyg⟩ := groupLoop_complete m ((iter_mp3_files r).map (mkInfo dig algo m))
      [] (mkInfo dig algo m x) (mkInfo dig algo m y) hndI
      (List.mem_map_of_mem _ hx) (List.mem_map_of_mem _ hy)
      (by rw [mkInfo_path, mkInfo_path]; exact hne)
      hkey (List.not_mem_nil _) (List.not_mem_nil _)
    rw [mkInfo_path] at hxg hyg
    refine ⟨{ files := g, tags := g.map (read_tags r) }, ?_, hxg, hyg⟩
    rw [find_duplicates_groups]
    exact List.mem_map_of_mem _ hg

/-- Mapped progress events are all progress events. -/
theorem countP_map_progress_self (l : List Nat) :
    (l.map Event.progress).countP isProgressEv = l.length := by
  induction l with
  | nil => rfl
  | cons a l ih => simp [List.countP_cons, isProgressEv, ih]

/-- Claim C2: for every root and strategy, every final group has at least two
member paths, no path appears in more than one group, every group member is
an enumerated file's path, and each group carries one `read_tags` record per
path, parallel and in the same order as the paths. -/
theorem C2_group_invariants (dig : String → List Nat → String) (r : Root) (m algo : String) :
    (∀ g ∈ (find_duplicates dig r m algo).groups, 2 ≤ g.files.length) ∧
    ((find_duplicates dig r m algo).groups.Pairwise
      (fun g1 g2 => ∀ p ∈ g1.files, p ∉ g2.files)) ∧
    (∀ g ∈ (find_duplicates dig r m algo).groups, ∀ p ∈ g.files,
      ∃ f ∈ iter_mp3_files r, f.path = p) ∧
    (∀ g ∈ (find_duplicates dig r m algo).groups, g.tags = g.files.map (read_tags r)) := by
  rw [find_duplicates_groups]
  refine ⟨?_, ?_, ?_, ?_⟩
  · intro g hg
    obtain ⟨g0, hg0, rfl⟩ := List.mem_map.mp hg
    have := groupLoop_two_lt m _ [] g0 hg0
    simpa using this
  · refine List.Pairwise.map _ ?_ (groupLoop_pairwise m _ [])
    intro a b hab p hp
    exact hab p hp
  · intro g hg p hp
    obtain ⟨g0, hg0, rfl⟩ := List.mem_map.mp hg
    obtain ⟨xi, hxi, hxi2⟩ := groupLoop_sound m _ [] g0 hg0 p hp
    obtain ⟨f, hf, rfl⟩ := List.mem_map.mp hxi
    rw [mkInfo_path] at hxi2
    exact ⟨f, hf, hxi2⟩
  · intro g hg
    obtain ⟨g0, hg0, rfl⟩ := List.mem_map.mp hg
    rfl

/-- Example digest model used by the concrete instances below. -/
def exDig : String → List Nat → String := fun _ _ => "d"

/-- Two same-size files for the C2 witness. -/
def rootC2 : Root :=
  ⟨true, [⟨"m", "a.mp3", some [0], some 5, []⟩, ⟨"m", "b.mp3", some [1], some 5, []⟩]⟩

/-- Witness for C2 at a concrete scan producing one group. -/
theorem C2_witness :
    2 ≤ (Group.mk ["m/a.mp3", "m/b.mp3"] [[], []]).files.length ∧
    (Group.mk ["m/a.mp3", "m/b.mp3"] [[], []]).tags
      = (Group.mk ["m/a.mp3", "m/b.mp3"] [[], []]).files.map (read_tags rootC2) :=
  ⟨(C2_group_invariants exDig rootC2 "size" "md5").1 _ (by decide),
   (C2_group_invariants exDig rootC2 "size" "md5").2.2.2 _ (by decide)⟩

/-- Claim C3: the event stream of every scan is exactly one total first, then
one progress event per file with non-decreasing values whose last value (if
any) equals the total, then exactly one terminal event, which ends the
stream. -/
theorem C3_event_stream (dig : String → List Nat → String) (r : Root) (m algo : String) :
    ∃ ps G,
      scan_worker dig r m algo
        = Event.total (iter_mp3_files r).length
            :: (ps.map Event.progress ++ [Event.done G]) ∧
      ps.length = (iter_mp3_files r).length ∧
      List.Chain' (fun a b => a ≤ b) ps ∧
      ps.getLast?.getD (iter_mp3_files r).length = (iter_mp3_files r).length ∧
      (scan_worker dig r m algo).countP isTotalEv = 1 ∧
      (scan_worker dig r m algo).countP isTerminalEv = 1 := by
  refine ⟨progVals 0 (iter_mp3_files r).length, (find_duplicates dig r m algo).groups,
    scan_worker_eq dig r m algo, progVals_length _ 0, progVals_chain _ 0, ?_, ?_, ?_⟩
  · cases hn : (iter_mp3_files r).length with
    | zero => simp [progVals]
    | succ n =>
      rw [progVals_getLast n 0]
      simp
  · rw [scan_worker_eq]
    simp [List.countP_cons, List.countP_append, isTotalEv,
      countP_map_progress isTotalEv (fun _ => rfl)]
  · rw [scan_worker_eq]
    simp [List.countP_cons, List.countP_append, isTerminalEv,
      countP_map_progress isTerminalEv (fun _ => rfl)]

/-- Claim C4: per-file failures never produce the error event — for every
snapshot, including ones whose files fail to read, stat or parse, the stream
has no error event, starts with the total equal to the full enumerated count,
counts one progress event per enumerated file, and ends with done. -/
theorem C4_no_error_on_per_file_failure (dig : String → List Nat → String) (r : Root)
    (m algo : String) :
    (scan_worker dig r m algo).countP isErrorEv = 0 ∧
    (scan_worker dig r m algo).head? = some (Event.total (iter_mp3_files r).length) ∧
    (scan_worker dig r m algo).getLast?
      = some (Event.done (find_duplicates dig r m algo).groups) ∧
    (scan_worker dig r m algo).countP isProgressEv = (iter_mp3_files r).length := by
  rw [scan_worker_eq]
  refine ⟨?_, rfl, ?_, ?_⟩
  · simp [List.countP_cons, List.countP_append, isErrorEv,
      countP_map_progress isErrorEv (fun _ => rfl)]
  · rw [← List.cons_append, List.getLast?_concat]
  · have hcomp : (isProgressEv ∘ Event.progress) = fun _ => true := by
      funext v
      rfl
    simp [List.countP_cons, List.countP_append, isProgressEv, hcomp, List.countP_true,
      progVals_length]

/-- A root that is not a readable directory, with a file below it that the
walk therefore never reports. -/
def rootC5 : Root := ⟨false, [⟨"r", "x.mp3", some [1], some 1, []⟩]⟩

/-- Counterexample to claim C5: for a root that is not a readable directory
the engine emits a total and a done event — it does not fail fast before the
scan, it runs the scan on an empty enumeration. -/
theorem C5_counterexample :
    rootC5.isReadableDir = false ∧
    scan_worker exDig rootC5 "hash" "md5" = [Event.total 0, Event.done []] :=
  ⟨rfl, by decide⟩

/-- Amended claim C5: the engine performs no root validation — for every root
that is not a readable directory the walk enumerates nothing and the scan
emits exactly a zero total followed by an empty done (root validation exists
only in the GUI layer, which checks `os.path.isdir` before starting the
worker). -/
theorem C5_no_root_validation (dig : String → List Nat → String) (r : Root) (m algo : String)
    (h : r.isReadableDir = false) :
    scan_worker dig r m algo = [Event.total 0, Event.done []] := by
  have hwalk : iter_mp3_files r = [] := by
    simp [iter_mp3_files, os_walk_files, h]
  rw [scan_worker_eq, hwalk, find_duplicates_groups, hwalk]
  simp [progVals, groupLoop]

/-- Witness for the amended C5 at a concrete invalid root. -/
theorem C5_witness : scan_worker exDig rootC5 "name" "sha1" = [Event.total 0, Event.done []] :=
  C5_no_root_validation exDig rootC5 "name" "sha1" rfl

/-- A file whose fingerprint computation fails under the given method: under
'hash' the open/read raised (content unavailable), under 'size' the stat
raised. -/
def fingerprintFailed (method : String) (f : FSFile) : Bool :=
  if method == "hash" then f.content.isNone
  else if method == "size" then f.fsize.isNone
  else false

/-- Two stat-failed files for the C1 counterexample. -/
def rootC1 : Root :=
  ⟨true, [⟨"r", "a.mp3", some [1], none, []⟩, ⟨"r", "b.mp3", some [2], none, []⟩]⟩

/-- Counterexample to claim C1: a file whose size stat fails is not excluded
from grouping — two stat-failed files share the `None` sentinel and are
emitted together as one duplicate group. -/
theorem C1_counterexample :
    (∃ f ∈ iter_mp3_files rootC1, f.fsize = none ∧ f.path = "r/a.mp3") ∧
    (find_duplicates exDig rootC1 "size" "md5").groups.map Group.files
      = [["r/a.mp3", "r/b.mp3"]] := by
  decide

/-- Amended claim C1: a file whose fingerprint computation fails never shares
a group with a file whose fingerprint succeeded, under the hash and the size
strategies (two failed files, however, share the unavailable sentinel and may
be grouped together). -/
theorem C1_failed_not_grouped_with_ok (dig : String → List Nat → String) (r : Root)
    (m algo : String) (x y : FSFile)
    (hm : m = "hash" ∨ m = "size")
    (hnd : ((iter_mp3_files r).map FSFile.path).Nodup)
    (hx : x ∈ iter_mp3_files r) (hy : y ∈ iter_mp3_files r)
    (hfx : fingerprintFailed m x = true) (hfy : fingerprintFailed m y = false) :
    ¬ ∃ g ∈ (find_duplicates dig r m algo).groups, x.path ∈ g.files ∧ y.path ∈ g.files := by
  intro hex
  by_cases hne : x.path = y.path
  · have hxy : x = y := List.inj_on_of_nodup_map hnd hx hy hne
    rw [hxy, hfy] at hfx
    cases hfx
  · have hkey := (grouped_iff_key dig r m algo x y hnd hx hy hne).mp hex
    rcases hm with h | h
    · subst h
      rw [keyOf_mkInfo_hash, keyOf_mkInfo_hash] at hkey
      have h1 : x.content.map (dig algo) = y.content.map (dig algo) := by
        have := congrArg Prod.fst hkey
        simpa using this
      have hx0 : x.content = none := by
        have : x.content.isNone = true := by simpa [fingerprintFailed] using hfx
        exact Option.isNone_iff_eq_none.mp this
      have hy0 : y.content ≠ none := by
        intro hc
        have : fingerprintFailed "hash" y = true := by simp [fingerprintFailed, hc]
        rw [hfy] at this
        cases this
      rw [hx0] at h1
      cases hyc : y.content with
      | none => exact hy0 hyc
      | some c =>
        rw [hyc] at h1
        simp at h1
    · subst h
      rw [keyOf_mkInfo_size, keyOf_mkInfo_size] at hkey
      have h1 : x.fsize = y.fsize := by
        have := congrArg (fun t => t.2.2) hkey
        simpa using this
      have hx0 : x.fsize = none := by
        have : x.fsize.isNone = true := by simpa [fingerprintFailed] using hfx
        exact Option.isNone_iff_eq_none.mp this
      have hy0 : y.fsize ≠ none := by
        intro hc
        have : fingerprintFailed "size" y = true := by simp [fingerprintFailed, hc]
        rw [hfy] at this
        cases this
      exact hy0 (h1 ▸ hx0)

/-- A read-failed file next to a readable one, for the C1 witness. -/
def rootC1w : Root :=
  ⟨true, [⟨"r", "a.mp3", none, some 1, []⟩, ⟨"r", "b.mp3", some [1], some 1, []⟩]⟩

/-- The read-failed file of `rootC1w`. -/
def fileC1wa : FSFile := ⟨"r", "a.mp3", none, some 1, []⟩

/-- The readable file of `rootC1w`. -/
def fileC1wb : FSFile := ⟨"r", "b.mp3", some [1], some 1, []⟩

/-- Witness for the amended C1 at a concrete scan. -/
theorem C1_witness :
    ¬ ∃ g ∈ (find_duplicates exDig rootC1w "hash" "md5").groups,
        fileC1wa.path ∈ g.files ∧ fileC1wb.path ∈ g.files :=
  C1_failed_not_grouped_with_ok exDig rootC1w "hash" "md5" fileC1wa fileC1wb
    (Or.inl rfl) (by decide) (by decide) (by decide) (by decide) (by decide)

/-- Modelled from the spec: the content-strategy fingerprint key described by
the specification — the pair `(fileSize, hexDigest)`, unavailable when the
file cannot be read (or sized), and an unavailable key never matches
anything. -/
def specContentKey (dig : String → List Nat → String) (algo : String) (f : FSFile) :
    Option (Nat × String) :=
  match f.fsize, f.content with
  | some s, some c => some (s, dig algo c)
  | _, _ => none

/-- Modelled from the spec: whether two candidates' content-strategy key
pairs compare equal — both pairs must exist and coincide. -/
def specContentMatch (dig : String → List Nat → String) (algo : String) (a b : FSFile) : Bool :=
  match specContentKey dig algo a, specContentKey dig algo b with
  | some k1, some k2 => k1 == k2
  | _, _ => false

/-- Two unreadable files for the C6 counterexample. -/
def rootC6 : Root :=
  ⟨true, [⟨"r", "a.mp3", none, some 1, []⟩, ⟨"r", "b.mp3", none, some 2, []⟩]⟩

/-- First unreadable file of `rootC6`. -/
def fileC6a : FSFile := ⟨"r", "a.mp3", none, some 1, []⟩

/-- Second unreadable file of `rootC6`. -/
def fileC6b : FSFile := ⟨"r", "b.mp3", none, some 2, []⟩

/-- Counterexample to claim C6: two candidates whose spec key pairs do not
compare equal (both unavailable) are nevertheless grouped as duplicates by
the code — the code compares only the stored digest option, in which two
failures coincide. -/
theorem C6_counterexample :
    fileC6a ∈ iter_mp3_files rootC6 ∧ fileC6b ∈ iter_mp3_files rootC6 ∧
    specContentMatch exDig "md5" fileC6a fileC6b = false ∧
    (∃ g ∈ (find_duplicates exDig rootC6 "hash" "md5").groups,
      fileC6a.path ∈ g.files ∧ fileC6b.path ∈ g.files) := by
  decide

/-- Amended claim C6: under the content strategy the fingerprint key is the
hex digest of the streamed contents alone — no size component, with a read
failure stored as the `None` sentinel — and two distinct candidates share a
final group exactly when those stored digest options compare equal. -/
theorem C6_grouped_iff_digest (dig : String → List Nat → String) (r : Root) (algo : String)
    (x y : FSFile)
    (hnd : ((iter_mp3_files r).map FSFile.path).Nodup)
    (hx : x ∈ iter_mp3_files r) (hy : y ∈ iter_mp3_files r)
    (hne : x.path ≠ y.path) :
    (∃ g ∈ (find_duplicates dig r "hash" algo).groups, x.path ∈ g.files ∧ y.path ∈ g.files)
      ↔ x.content.map (dig algo) = y.content.map (dig algo) := by
  rw [grouped_iff_key dig r "hash" algo x y hnd hx hy hne,
    keyOf_mkInfo_hash, keyOf_mkInfo_hash]
  constructor
  · intro h
    have := congrArg Prod.fst h
    simpa using this
  · intro h
    rw [h]

/-- Two files with equal contents for the C6 witness. -/
def rootC6w : Root :=
  ⟨true, [⟨"r", "a.mp3", some [7], some 1, []⟩, ⟨"r", "b.mp3", some [7], some 1, []⟩]⟩

/-- First file of `rootC6w`. -/
def fileC6wa : FSFile := ⟨"r", "a.mp3", some [7], some 1, []⟩

/-- Second file of `rootC6w`. -/
def fileC6wb : FSFile := ⟨"r", "b.mp3", some [7], some 1, []⟩

/-- Witness for the amended C6 at a concrete scan. -/
theorem C6_witness :
    ∃ g ∈ (find_duplicates exDig rootC6w "hash" "md5").groups,
      fileC6wa.path ∈ g.files ∧ fileC6wb.path ∈ g.files :=
  (C6_grouped_iff_digest exDig rootC6w "md5" fileC6wa fileC6wb
    (by decide) (by decide) (by decide) (by decide)).mpr rfl

/-- Two files with different base names but the same stem, identical
contents and no title tags, for the C7 counterexample. -/
def rootC7 : Root :=
  ⟨true, [⟨"r", "a.mp3", some [1], some 1, []⟩, ⟨"r", "a.MP3", some [1], some 1, []⟩]⟩

/-- First file of `rootC7`. -/
def fileC7a : FSFile := ⟨"r", "a.mp3", some [1], some 1, []⟩

/-- Second file of `rootC7`. -/
def fileC7b : FSFile := ⟨"r", "a.MP3", some [1], some 1, []⟩

/-- Counterexample to claim C7: two files with no title tag and different
base names ("a.mp3" vs "a.MP3") do match under the name strategy, because
the fallback key is the base name without extension and both stems are
"a". -/
theorem C7_counterexample :
    os_path_basename fileC7a.path ≠ os_path_basename fileC7b.path ∧
    tagsGet fileC7a.tags "title" = none ∧ tagsGet fileC7b.tags "title" = none ∧
    fileC7a.content = fileC7b.content ∧
    (∃ g ∈ (find_duplicates exDig rootC7 "name" "md5").groups,
      fileC7a.path ∈ g.files ∧ fileC7b.path ∈ g.files) := by
  decide

/-- Amended claim C7: under the name strategy a candidate's key is its first
declared title value when the title entry is present and non-empty, else its
base name without extension; two distinct candidates share a group exactly
when those keys are equal — so equal declared titles group together, and two
files with no title tag whose base names without extension differ never
match. -/
theorem C7_grouped_iff_title (dig : String → List Nat → String) (r : Root) (algo : String)
    (x y : FSFile)
    (hnd : ((iter_mp3_files r).map FSFile.path).Nodup)
    (hx : x ∈ iter_mp3_files r) (hy : y ∈ iter_mp3_files r)
    (hne : x.path ≠ y.path) :
    (∃ g ∈ (find_duplicates dig r "name" algo).groups, x.path ∈ g.files ∧ y.path ∈ g.files)
      ↔ titleOf x.tags x.path = titleOf y.tags y.path := by
  rw [grouped_iff_key dig r "name" algo x y hnd hx hy hne,
    keyOf_mkInfo_name, keyOf_mkInfo_name]
  constructor
  · intro h
    have := congrArg (fun t => t.2.1) h
    simpa using this
  · intro h
    rw [h]

/-- Two files with the declared title "Song" for the C7 witness. -/
def rootC7w : Root :=
  ⟨true, [⟨"r", "x.mp3", some [1], some 1, [("title", ["Song"])]⟩,
          ⟨"r", "y.mp3", some [2], some 2, [("title", ["Song"])]⟩]⟩

/-- First file of `rootC7w`. -/
def fileC7wa : FSFile := ⟨"r", "x.mp3", some [1], some 1, [("title", ["Song"])]⟩

/-- Second file of `rootC7w`. -/
def fileC7wb : FSFile := ⟨"r", "y.mp3", some [2], some 2, [("title", ["Song"])]⟩

/-- Witness for the amended C7 at a concrete scan: equal declared titles
fall into one group. -/
theorem C7_witness :
    ∃ g ∈ (find_duplicates exDig rootC7w "name" "md5").groups,
      fileC7wa.path ∈ g.files ∧ fileC7wb.path ∈ g.files :=
  (C7_grouped_iff_title exDig rootC7w "md5" fileC7wa fileC7wb
    (by decide) (by decide) (by decide) (by decide)).mpr rfl

/-- Two readable files with unique sizes for the C8 counterexample. -/
def rootC8 : Root :=
  ⟨true, [⟨"r", "a.mp3", some [1], some 5, []⟩, ⟨"r", "b.mp3", some [2], some 7, []⟩]⟩

/-- First file of `rootC8`. -/
def fileC8a : FSFile := ⟨"r", "a.mp3", some [1], some 5, []⟩

/-- Second file of `rootC8`. -/
def fileC8b : FSFile := ⟨"r", "b.mp3", some [2], some 7, []⟩

/-- Counterexample to claim C8: there is no size pre-bucketing — the content
hash function is invoked on files whose byte size is unique among the
enumerated candidates. -/
theorem C8_counterexample :
    iter_mp3_files rootC8 = [fileC8a, fileC8b] ∧
    fileC8a.fsize ≠ fileC8b.fsize ∧
    fileC8a.path ∈ (find_duplicates exDig rootC8 "hash" "md5").hashCalls ∧
    fileC8b.path ∈ (find_duplicates exDig rootC8 "hash" "md5").hashCalls := by
  decide

/-- Amended claim C8: under the content strategy the hash function is invoked
once per enumerated candidate, regardless of size uniqueness (sizes are never
even consulted). -/
theorem C8_hash_called_on_every_file (dig : String → List Nat → String) (r : Root)
    (algo : String) :
    (find_duplicates dig r "hash" algo).hashCalls = (iter_mp3_files r).map FSFile.path := by
  rw [find_duplicates_hashCalls]
  simp

/-- One lone file with tags, for the C9 counterexample. -/
def rootC9 : Root := ⟨true, [⟨"r", "solo.mp3", some [1], some 5, [("artist", ["X"])]⟩]⟩

/-- Counterexample to claim C9: under the name strategy `read_tags` is
invoked for a file that ends up in no group at all. -/
theorem C9_counterexample :
    (find_duplicates exDig rootC9 "name" "md5").groups = [] ∧
    (find_duplicates exDig rootC9 "name" "md5").tagReads = ["r/solo.mp3"] := by
  decide

/-- Amended claim C9: the `read_tags` call log is exactly the per-candidate
reads of the name strategy (which needs tags to compute every candidate's
key) followed by one read per grouped path; in particular, under the hash and
size strategies every read is for a path of some emitted group. -/
theorem C9_tag_reads (dig : String → List Nat → String) (r : Root) (m algo : String) :
    (find_duplicates dig r m algo).tagReads
      = (if m == "name" then (iter_mp3_files r).map FSFile.path else [])
          ++ (find_duplicates dig r m algo).groups.flatMap Group.files ∧
    (m = "hash" ∨ m = "size" →
      ∀ p ∈ (find_duplicates dig r m algo).tagReads,
        ∃ g ∈ (find_duplicates dig r m algo).groups, p ∈ g.files) := by
  refine ⟨find_duplicates_tagReads dig r m algo, ?_⟩
  intro hm p hp
  rw [find_duplicates_tagReads] at hp
  rcases List.mem_append.mp hp with h | h
  · rcases hm with h' | h' <;> subst h' <;> simp at h
  · obtain ⟨g, hg, hpg⟩ := List.mem_flatMap.mp h
    exact ⟨g, hg, hpg⟩

/-- Two same-size files for the C9 witness. -/
def rootC9w : Root :=
  ⟨true, [⟨"w", "a.mp3", some [0], some 5, []⟩, ⟨"w", "b.mp3", some [1], some 5, []⟩]⟩

/-- Witness for the amended C9 at a concrete scan under the size strategy. -/
theorem C9_witness :
    ∃ g ∈ (find_duplicates exDig rootC9w "size" "md5").groups, "w/a.mp3" ∈ g.files :=
  (C9_tag_reads exDig rootC9w "size" "md5").2 (Or.inr rfl) "w/a.mp3" (by decide)

/-- When every pair matches, the inner loop collects every remaining
distinct-path unused candidate. -/
theorem innerLoop_all (m : String) (fi : FileInfo) :
    ∀ (rest : List FileInfo) (group u : List String),
      (∀ fj ∈ rest, matchesInfo m fi fj = true) →
      (rest.map FileInfo.path).Nodup →
      (∀ p ∈ rest.map FileInfo.path, p ∉ u) →
      innerLoop m fi rest group u
        = (group ++ rest.map FileInfo.path, (rest.map FileInfo.path).reverse ++ u) := by
  intro rest
  induction rest with
  | nil => intro group u _ _ _; simp [innerLoop]
  | cons fj rest ih =>
    intro group u hall hnd hu
    have hju : fj.path ∉ u := hu fj.path (by simp)
    have hstep : innerLoop m fi (fj :: rest) group u
        = innerLoop m fi rest (group ++ [fj.path]) (fj.path :: u) := by
      simp [innerLoop, hju, hall fj (by simp)]
    rw [hstep]
    have hndr : (rest.map FileInfo.path).Nodup := (List.nodup_cons.mp (by simpa using hnd)).2
    have hjr : fj.path ∉ rest.map FileInfo.path := (List.nodup_cons.mp (by simpa using hnd)).1
    rw [ih (group ++ [fj.path]) (fj.path :: u)
      (fun x hx => hall x (List.mem_cons_of_mem _ hx)) hndr
      (by
        intro p hp
        intro hc
        rcases List.mem_cons.mp hc with h | h
        · exact hjr (h ▸ hp)
        · exact hu p (List.mem_cons_of_mem _ hp) h)]
    simp

/-- When every candidate's path is already used, no group is emitted. -/
theorem groupLoop_all_used (m : String) :
    ∀ (l : List FileInfo) (u : List String), (∀ x ∈ l, x.path ∈ u) → groupLoop m l u = [] := by
  intro l
  induction l with
  | nil => intro u _; rfl
  | cons fi rest ih =>
    intro u h
    rw [show groupLoop m (fi :: rest) u = groupLoop m rest u from by
      simp [groupLoop, h fi (by simp)]]
    exact ih u (fun x hx => h x (List.mem_cons_of_mem _ hx))

/-- When every pair matches and paths are distinct, the grouping pass emits
the single group of all candidate paths (given at least two candidates). -/
theorem groupLoop_all_match (m : String) (l : List FileInfo)
    (hall : ∀ fi fj : FileInfo, matchesInfo m fi fj = true)
    (hnd : (l.map FileInfo.path).Nodup) (hlen : 2 ≤ l.length) :
    groupLoop m l [] = [l.map FileInfo.path] := by
  match l with
  | [] => simp at hlen
  | fi :: rest =>
    have hndr : (rest.map FileInfo.path).Nodup := (List.nodup_cons.mp (by simpa using hnd)).2
    have hinner := innerLoop_all m fi rest [fi.path] []
      (fun fj _ => hall fi fj) hndr (by simp)
    have hfu : fi.path ∉ ([] : List String) := List.not_mem_nil _
    rw [show groupLoop m (fi :: rest) []
        = (if 1 < ([fi.path] ++ rest.map FileInfo.path).length
           then ([fi.path] ++ rest.map FileInfo.path)
                  :: groupLoop m rest (([fi.path] ++ rest.map FileInfo.path)
                      ++ ((rest.map FileInfo.path).reverse ++ []))
           else groupLoop m rest ((rest.map FileInfo.path).reverse ++ []))
        from by simp only [groupLoop, if_neg hfu, hinner]]
    have hlen' : 1 < ([fi.path] ++ rest.map FileInfo.path).length := by
      simp only [List.length_append, List.length_singleton, List.length_map]
      have : (fi :: rest).length = rest.length + 1 := by simp
      omega
    rw [if_pos hlen']
    rw [groupLoop_all_used m rest _ (fun x hx => by
      refine List.mem_append_left _ ?_
      exact List.mem_append_right _ (List.mem_map_of_mem FileInfo.path hx))]
    simp

/-- Two files for the C10 concrete instance. -/
def rootC10 : Root :=
  ⟨true, [⟨"r", "a.mp3", some [1], some 5, []⟩, ⟨"r", "b.mp3", some [2], some 7, []⟩]⟩

/-- Claim C10: an unrecognized strategy selector raises nothing — every pair
of infos matches, the stream carries no error event, and a scan of at least
two (distinct-path) enumerated files yields the single group of all
enumerated files. -/
theorem C10_unknown_method (dig : String → List Nat → String) (r : Root) (m algo : String)
    (h1 : m ≠ "hash") (h2 : m ≠ "name") (h3 : m ≠ "size")
    (hnd : ((iter_mp3_files r).map FSFile.path).Nodup)
    (hlen : 2 ≤ (iter_mp3_files r).length) :
    (∀ fi fj : FileInfo, matchesInfo m fi fj = true) ∧
    (scan_worker dig r m algo).countP isErrorEv = 0 ∧
    (find_duplicates dig r m algo).groups
      = [{ files := (iter_mp3_files r).map FSFile.path,
           tags := ((iter_mp3_files r).map FSFile.path).map (read_tags r) }] := by
  have hall := matchesInfo_unknown m h1 h2 h3
  refine ⟨hall, ?_, ?_⟩
  · rw [scan_worker_eq]
    simp [List.countP_cons, List.countP_append, isErrorEv,
      countP_map_progress isErrorEv (fun _ => rfl)]
  · rw [find_duplicates_groups]
    have hndI : (((iter_mp3_files r).map (mkInfo dig algo m)).map FileInfo.path).Nodup := by
      rw [infos_map_path]
      exact hnd
    have hlenI : 2 ≤ ((iter_mp3_files r).map (mkInfo dig algo m)).length := by
      simpa using hlen
    rw [groupLoop_all_match m _ hall hndI hlenI, infos_map_path]
    rfl

/-- Witness for C10 at a concrete scan with the unrecognized method "foo". -/
theorem C10_witness :
    (find_duplicates exDig rootC10 "foo" "md5").groups
      = [{ files := ["r/a.mp3", "r/b.mp3"], tags := [[], []] }] :=
  ((C10_unknown_method exDig rootC10 "foo" "md5"
    (by decide) (by decide) (by decide) (by decide) (by decide)).2.2).trans (by decide)

end Nettoyage
